import Mathlib

/-!
Verification of the Scraper repository's core harvesting engine against its
natural-language specification.

The Python sources are shallowly embedded below:
* `src/src/articles/scraper.py` — the domain-fair batcher `_batchify`;
* `src/scrapers/links/async_link_scraper.py` and
  `src/scrapers/links/sync_link_scraper.py` — `_fetch_and_parse`, `scrape`;
* `src/scrapers/links/link_scraper.py` / `async_link_scraper.py` — the
  `run`/`__call__` windowing dispatcher;
* `src/src/query.py` — `Query`;
* `src/src/google.py` — `GoogleNewsLinkScraper._get_news_articles`;
* `src/src/news_article.py` — `NewsArticle.metadata`.

Dates are modelled as integers (ordinal day numbers, as in Python's
`date.toordinal`), so `date + timedelta(days = n)` is `d + n` and
`(e - s).days` is `e - s`.  External collaborators (HTTP transport, HTML
parsers, `tldextract`) are modelled as oracle function parameters.
-/

namespace Scraper

/-- Shallow embedding of `src/src/news_article.py`'s `NewsArticle` state:
the fields read or written by the code under verification.  `publishDate`
is an `Option` because `self.article.publish_date` may be Python `None`
after a successful parse; `none` models `None` (the only falsy value this
field can take, since a `datetime.date` object is always truthy). -/
structure NewsArticle where
  url : String
  domain : String
  query : String
  title : String
  text : String
  authors : List String
  publishDate : Option Int
  summary : String
  downloaded : Bool
  parsed : Bool
  nlpApplied : Bool
deriving DecidableEq, Repr

/-- A convenient constructor used by concrete test inputs: an article that
only carries a url and a domain (all other fields at their
`NewsArticle.__init__` defaults, with `publishDate` standing for
`date(1970, 1, 1)`, ordinal 719163). -/
def mkArt (dom u : String) : NewsArticle :=
  { url := u, domain := dom, query := "", title := "", text := "",
    authors := [], publishDate := some 719163, summary := "",
    downloaded := false, parsed := false, nlpApplied := false }

/-! ## Domain-fair batcher (`src/src/articles/scraper.py`, `_batchify`)

The Python function groups articles into an insertion-ordered dict
`hashtable : domain -> list of articles` (a `defaultdict(list)` filled by
a single left-to-right loop), then repeatedly sweeps the live domains,
taking the first article of each, closing the current batch as soon as it
reaches `max_batch` articles (`break`), and finishing when the dict is
empty.  The dict is modelled as an association list whose entries keep a
provably nonempty bucket `(domain, first article, later articles)`;
insertion order of keys and of articles within a bucket matches the dict
semantics of CPython. -/

/-- One entry of the `hashtable`: domain, first queued article, rest of the
bucket in arrival order.  Models `hashtable[domain] = a :: as`. -/
abbrev Entry := String × NewsArticle × List NewsArticle

/-- `hashtable[article.domain].append(article)` on a `defaultdict(list)`:
append to the bucket with this key if one exists (keys are scanned in
insertion order), otherwise add a new key at the end. -/
def insertArticle : List Entry → NewsArticle → List Entry
  | [], x => [(x.domain, x, [])]
  | (d, a, as) :: rest, x =>
    if d = x.domain then (d, a, as ++ [x]) :: rest
    else (d, a, as) :: insertArticle rest x

/-- The grouping loop
`for article in articles: hashtable[article.domain].append(article)`. -/
def groupByDomain (articles : List NewsArticle) : List Entry :=
  articles.foldl insertArticle []

/-- `hashtable_temp[domain].pop(0)` followed by deleting the key when its
bucket becomes empty: the entry after removing its first article, or
`none` when the bucket had a single article. -/
def popEntry (e : Entry) : Option Entry :=
  match e with
  | (_, _, []) => none
  | (d, _, b :: bs) => some (d, b, bs)

/-- The first article of an entry's bucket (`hashtable[domain][0]`). -/
def headArt (e : Entry) : NewsArticle := e.2.1

/-- Result of one `for domain in hashtable.keys(): ...` sweep. -/
structure RoundResult where
  ht : List Entry
  batch : Option (List NewsArticle)
  cur : List NewsArticle
deriving DecidableEq, Repr

/-- One sweep of the `for domain in hashtable.keys()` loop, over the
entries in key-insertion order.  For each visited domain the head of its
bucket is appended to `current_batch` and popped from the dict; when
`len(current_batch) >= max_batch` the batch is emitted, `current_batch`
is reset and the loop `break`s, leaving the unvisited entries untouched.
At most one batch is emitted per sweep (the `break` is immediate). -/
def runRound : List Entry → List NewsArticle → Nat → RoundResult
  | [], cur, _ => ⟨[], none, cur⟩
  | (d, a, as) :: rest, cur, maxB =>
    let cur' := cur ++ [a]
    let popped := (popEntry (d, a, as)).toList
    if maxB ≤ cur'.length then
      ⟨popped ++ rest, some cur', []⟩
    else
      let r := runRound rest cur' maxB
      ⟨popped ++ r.ht, r.batch, r.cur⟩

/-- Total number of queued articles, the termination measure of the
`while not batching_done` loop. -/
def htSize (ht : List Entry) : Nat :=
  (ht.map fun e => 1 + e.2.2.length).sum

/-- The `while not batching_done:` loop.  Each iteration recomputes
`max_batch` (`len(hashtable.keys())` in dynamic mode), runs one key sweep,
and if the dict is now empty appends `current_batch` once more and stops.
`fuel` bounds the number of iterations; `htSize ht + 1` iterations always
suffice because each sweep of a nonempty dict pops at least one article
(`runRound_size` below), so the `0` case is unreachable from
`_batchify`. -/
def whileLoopF : Nat → Bool → Nat → List Entry → List (List NewsArticle) →
    List NewsArticle → List (List NewsArticle)
  | 0, _, _, _, batches, cur => batches ++ [cur]
  | fuel + 1, dyn, maxB, ht, batches, cur =>
    let maxB' := if dyn then ht.length else maxB
    let r := runRound ht cur maxB'
    let batches' := batches ++ r.batch.toList
    if r.ht = [] then batches' ++ [r.cur]
    else whileLoopF fuel dyn maxB r.ht batches' r.cur

/-- `_batchify(articles, max_batch)`.  `maxBatch = none` models the Python
default `max_batch = None`; `dynamic = not bool(max_batch)` is true for
`None` and `0`. -/
def _batchify (articles : List NewsArticle) (maxBatch : Option Nat) :
    List (List NewsArticle) :=
  let ht := groupByDomain articles
  let dyn := maxBatch.getD 0 == 0
  whileLoopF (htSize ht + 1) dyn (maxBatch.getD 0) ht [] []

/-- All queued articles of the dict, bucket after bucket in key order. -/
def flattenHT (ht : List Entry) : List NewsArticle :=
  ht.flatMap fun e => e.2.1 :: e.2.2

/-- The keys of the dict in insertion order. -/
def htKeys (ht : List Entry) : List String := ht.map fun e => e.1

/-- The dict keys are pairwise distinct (CPython dict invariant). -/
def keysND (ht : List Entry) : Prop := (htKeys ht).Nodup

/-- Every queued article sits in the bucket of its own domain. -/
def bucketsOk (ht : List Entry) : Prop :=
  ∀ e ∈ ht, e.2.1.domain = e.1 ∧ ∀ b ∈ e.2.2, b.domain = e.1

/-! ## Link scrapers (`src/scrapers/links/*.py`)

`async_link_scraper.py` and `sync_link_scraper.py` contain the same
`_fetch_and_parse` control flow (lines 133–157 resp. 135–157); the
windowing dispatcher is shared verbatim between `async_link_scraper.run`
and `link_scraper.LinkScraper.__call__`.  External effects are oracles:
`fetchO` maps a URL to what `self._fetch` returns (page content, or
`None` after its internal `except` caught a transport/HTTP error), and
`parseO` maps page content to what `self.parse_content` does (a list of
links, or an uncaught exception). -/

/-- What `_fetch(url)` returns: page text, or `None` (every transport /
HTTP-status error is caught inside `_fetch` and turned into `None`). -/
inductive Fetched where
  | content (c : String)
  | failed
deriving DecidableEq, Repr

/-- Outcome of running a Python callable: a normal return value, or an
exception propagating to the caller. -/
inductive PyResult (α : Type) where
  | ok (val : α)
  | exn (msg : String)
deriving DecidableEq, Repr

/-- `_fetch_and_parse(url)`: sleep (timing not modelled), fetch, and
* on fetched content, `return self.parse_content(content)`; if the parser
  raises, the `except` logs the error and control falls off the end of
  the function, returning Python `None` (modelled as `none`);
* on a failed fetch (`content is None`), log and `return []`.
No exception escapes: every path returns a value. -/
def fetchAndParse (fetchO : String → Fetched)
    (parseO : String → PyResult (List String)) (url : String) :
    Option (List String) :=
  match fetchO url with
  | .content c =>
    match parseO c with
    | .ok links => some links
    | .exn _ => none
  | .failed => some []

/-- One row of the scraped table (async `scrape`):
`{"start date": ..., "end date": ..., "links": ...}`. -/
structure DateWindowRow where
  startD : Int
  endD : Int
  links : List String
deriving DecidableEq, Repr

/-- `raw_data`: one `_fetch_and_parse` per page `1 .. num_pages`, results
in page order (`asyncio.gather` preserves task order). -/
def rawData (fetchO : String → Fetched) (parseO : String → PyResult (List String))
    (urlF : String → Int → Int → Nat → String) (query : String)
    (numPages : Nat) (s e : Int) : List (Option (List String)) :=
  (List.range numPages).map fun i =>
    fetchAndParse fetchO parseO (urlF query s e (i + 1))

/-- Body of the per-window loop of the async `scrape`: flattening
`result_contents` raises `TypeError` as soon as a page result is `None`
(iterating `None` fails), in which case the surrounding `except` logs and
the row is skipped; otherwise the row is appended. -/
def windowRow (fetchO : String → Fetched) (parseO : String → PyResult (List String))
    (urlF : String → Int → Int → Nat → String) (query : String)
    (numPages : Nat) (w : Int × Int) : List DateWindowRow :=
  let contents := rawData fetchO parseO urlF query numPages w.1 w.2
  if contents.all Option.isSome then
    [⟨w.1, w.2, (contents.map (Option.getD · [])).flatten⟩]
  else []

/-- `AsyncLinkScraper.scrape(query, date_range)`: the `for start_date,
end_date in date_range` loop, accumulating rows. -/
def scrape (fetchO : String → Fetched) (parseO : String → PyResult (List String))
    (urlF : String → Int → Int → Nat → String) (query : String)
    (numPages : Nat) (dateRange : List (Int × Int)) : List DateWindowRow :=
  dateRange.foldl
    (fun rows w => rows ++ windowRow fetchO parseO urlF query numPages w) []

/-- `method == 'daily'` branch: `[(start + x, start + x) for x in
range((end - start).days)]` (`range` of a negative count is empty, hence
`Int.toNat`). -/
def dateRangeDaily (s e : Int) : List (Int × Int) :=
  (List.range (e - s).toNat).map fun (x : Nat) => (s + (x : Int), s + (x : Int))

/-- `method == 'weekly'` branch: `[(start + 7 i, start + 7 (i + 1)) for i
in range((end - start).days // 7)]`.  For `start ≤ end` Python's floor
division agrees with `Nat` division of the nonnegative difference. -/
def dateRangeWeekly (s e : Int) : List (Int × Int) :=
  (List.range ((e - s).toNat / 7)).map fun (i : Nat) =>
    (s + 7 * (i : Int), s + 7 * ((i : Int) + 1))

/-- The `try` block of `run` / `__call__`: build the window list, or raise
`ValueError` on an unsupported method. -/
def buildDateRange (method : String) (s e : Int) :
    Except String (List (Int × Int)) :=
  if method = "daily" then .ok (dateRangeDaily s e)
  else if method = "weekly" then .ok (dateRangeWeekly s e)
  else .error "Unsupported scraping method. Supported methods are 'daily' and 'weekly'."

/-- `AsyncLinkScraper.run` (= `LinkScraper.__call__` windowing logic):
the `except` around the `try` catches the `ValueError` itself, logs, and
sets `date_range = []`; then a nonempty range is scraped and returned,
while an empty range is only logged, returning `None`.  The result is a
`PyResult` so that "an exception reaches the caller" is expressible; no
path of the source produces `.exn`. -/
def run (fetchO : String → Fetched) (parseO : String → PyResult (List String))
    (urlF : String → Int → Int → Nat → String) (query : String)
    (numPages : Nat) (method : String) (s e : Int) :
    PyResult (Option (List DateWindowRow)) :=
  let dateRange :=
    match buildDateRange method s e with
    | .ok r => r
    | .error _ => []
  if dateRange.length ≠ 0 then
    .ok (some (scrape fetchO parseO urlF query numPages dateRange))
  else
    .ok none

/-! ## `Query` (`src/src/query.py`) -/

/-- `Query.__init__` state: the text and the two bounds; `dates` and
`__len__` are derived below exactly as in the source. -/
structure Query where
  query : String
  start : Int
  endDate : Int
deriving DecidableEq, Repr

/-- `self.dates = [start + timedelta(n) for n in range((end - start).days
+ 1)]` — an empty list when `(end - start).days + 1 ≤ 0`. -/
def Query.dates (q : Query) : List Int :=
  (List.range (q.endDate - q.start + 1).toNat).map fun (n : Nat) =>
    q.start + (n : Int)

/-- The value computed by `Query.__len__`: `(self.end - self.start).days`. -/
def Query.len (q : Query) : Int := q.endDate - q.start

/-! ## `GoogleNewsLinkScraper._get_news_articles` (`src/src/google.py`)

`_get_links` (network + HTML parsing, never raises: both its `try`
blocks return `[]` on error) is the oracle `getLinks`; `tldextract`
is the oracle `domainOf`. -/

/-- `NewsArticle.__init__(query, url)`: fresh state, `publish_date =
date(1970, 1, 1)` (ordinal 719163, truthy). -/
def newArticle (domainOf : String → String) (q : Query) (url : String) :
    NewsArticle :=
  { url := url, domain := domainOf url, query := q.query, title := "",
    text := "", authors := [], publishDate := some 719163, summary := "",
    downloaded := false, parsed := false, nlpApplied := false }

/-- The `for page in range(1, pages + 1)` loop for one `q_date`:
append one article per link found, then reassign `publish_date = q_date`
on every article accumulated so far, and `break` when the accumulator is
still empty.  `page` is the current page number, `remaining` the number
of page iterations left. -/
def pagesLoop (domainOf : String → String) (getLinks : String → List String)
    (urlOf : String → Int → Nat → String) (q : Query) (qd : Int) :
    Nat → Nat → List NewsArticle → List NewsArticle
  | _, 0, articles => articles
  | page, remaining + 1, articles =>
    let arts := articles ++
      (getLinks (urlOf q.query qd page)).map (newArticle domainOf q)
    let arts' := arts.map fun a => { a with publishDate := some qd }
    if arts' = [] then arts'
    else pagesLoop domainOf getLinks urlOf q qd (page + 1) remaining arts'

/-- `_get_news_articles(queries, pages)`: iterate the queries, for each
query iterate its `dates`, and run the page loop, all on one shared
`articles` accumulator. -/
def getNewsArticles (domainOf : String → String)
    (getLinks : String → List String)
    (urlOf : String → Int → Nat → String)
    (queries : List Query) (pages : Nat) : List NewsArticle :=
  queries.foldl
    (fun articles q =>
      q.dates.foldl
        (fun arts qd => pagesLoop domainOf getLinks urlOf q qd 1 pages arts)
        articles)
    []

/-! ## `NewsArticle.metadata` (`src/src/news_article.py`) -/

/-- The metadata dictionary built by `NewsArticle.metadata`. -/
structure Metadata where
  url : String
  query : String
  title : String
  text : String
  authors : List String
  publishDate : Int
  summary : String
deriving DecidableEq, Repr

/-- `metadata()`: `if not self.publish_date: return dict()`; then a full
record if `self.downloaded and self.parsed`, else `dict()`.  `none`
models the empty dict (a `date` is always truthy, so the first guard
fires exactly when `publish_date` is `None`). -/
def NewsArticle.metadata (a : NewsArticle) : Option Metadata :=
  match a.publishDate with
  | none => none
  | some d =>
    if a.downloaded && a.parsed then
      some ⟨a.url, a.query, a.title, a.text, a.authors, d, a.summary⟩
    else none

end Scraper

namespace Scraper

/-! ## Lemmas about the domain-fair batcher -/

theorem htSize_append (xs ys : List Entry) :
    htSize (xs ++ ys) = htSize xs + htSize ys := by
  simp [htSize]

theorem htSize_popEntry (e : Entry) :
    htSize (popEntry e).toList = e.2.2.length := by
  rcases e with ⟨d, a, as⟩
  cases as
  · simp [popEntry, htSize]
  · simp [popEntry, htSize]
    omega

theorem flattenHT_append (xs ys : List Entry) :
    flattenHT (xs ++ ys) = flattenHT xs ++ flattenHT ys := by
  simp [flattenHT]

theorem flattenHT_popEntry (e : Entry) :
    e.2.1 :: flattenHT (popEntry e).toList = flattenHT [e] := by
  rcases e with ⟨d, a, as⟩
  cases as <;> simp [popEntry, flattenHT]

/-- Appending one article to the dict adds exactly that article to the
queued pool. -/
theorem insertArticle_perm (g : List Entry) (x : NewsArticle) :
    List.Perm (flattenHT (insertArticle g x)) (flattenHT g ++ [x]) := by
  induction g with
  | nil => simp [insertArticle, flattenHT]
  | cons e g ih =>
    rcases e with ⟨d, a, as⟩
    by_cases h : d = x.domain
    · simp only [insertArticle, if_pos h, flattenHT, List.flatMap_cons]
      refine List.perm_iff_count.mpr fun y => ?_
      simp only [List.count_append, List.count_cons, List.count_nil]
      omega
    · simp only [insertArticle, if_neg h, flattenHT, List.flatMap_cons]
      refine List.perm_iff_count.mpr fun y => ?_
      have hc := List.Perm.count_eq ih y
      simp only [flattenHT, List.count_append, List.count_cons,
        List.count_nil] at hc ⊢
      omega

/-- The grouping loop preserves the article pool up to permutation. -/
theorem groupByDomain_perm (articles : List NewsArticle) :
    List.Perm (flattenHT (groupByDomain articles)) articles := by
  suffices h : ∀ (xs : List NewsArticle) (g : List Entry),
      List.Perm (flattenHT (List.foldl insertArticle g xs)) (flattenHT g ++ xs) by
    simpa [groupByDomain, flattenHT] using h articles []
  intro xs
  induction xs with
  | nil => intro g; simp
  | cons x xs ih =>
    intro g
    have h1 := ih (insertArticle g x)
    have h2 := insertArticle_perm g x
    refine List.Perm.trans (by simpa [List.foldl_cons] using h1) ?_
    refine List.perm_iff_count.mpr fun y => ?_
    have hc := List.Perm.count_eq h2 y
    simp only [List.count_append, List.count_cons, List.count_nil] at hc ⊢
    omega

/-- One key sweep preserves the pool: queued + emitted + current before
equals queued + emitted + current after. -/
theorem runRound_perm (entries : List Entry) (cur : List NewsArticle)
    (maxB : Nat) :
    List.Perm
      (flattenHT (runRound entries cur maxB).ht ++
        ((runRound entries cur maxB).batch.getD []) ++
        (runRound entries cur maxB).cur)
      (flattenHT entries ++ cur) := by
  induction entries generalizing cur with
  | nil => simp [runRound]
  | cons e rest ih =>
    rcases e with ⟨d, a, as⟩
    by_cases h : maxB ≤ (cur ++ [a]).length
    · simp only [runRound, if_pos h]
      refine List.perm_iff_count.mpr fun y => ?_
      have hpop := congrArg (List.count y) (flattenHT_popEntry (d, a, as))
      simp only [flattenHT, List.flatMap_cons, List.flatMap_nil,
        List.flatMap_append, List.append_nil, List.count_append,
        List.count_cons, List.count_nil, Option.getD_some] at hpop ⊢
      omega
    · simp only [runRound, if_neg h]
      have hc := List.Perm.count_eq (ih (cur ++ [a]))
      refine List.perm_iff_count.mpr fun y => ?_
      have hcy := hc y
      have hpop := congrArg (List.count y) (flattenHT_popEntry (d, a, as))
      simp only [flattenHT, List.flatMap_cons, List.flatMap_nil,
        List.flatMap_append, List.append_nil, List.count_append,
        List.count_cons, List.count_nil, Option.getD_some] at hcy hpop ⊢
      omega

/-- A sweep of a nonempty dict pops at least one queued article. -/
theorem runRound_size (entries : List Entry) (cur : List NewsArticle)
    (maxB : Nat) (h : entries ≠ []) :
    htSize (runRound entries cur maxB).ht < htSize entries := by
  induction entries generalizing cur with
  | nil => exact absurd rfl h
  | cons e rest ih =>
    rcases e with ⟨d, a, as⟩
    by_cases hb : maxB ≤ (cur ++ [a]).length
    · simp only [runRound, if_pos hb]
      have h1 := htSize_popEntry (d, a, as)
      simp only [htSize_append, htSize, List.map_cons, List.sum_cons,
        List.map_append, List.sum_append] at h1 ⊢
      omega
    · simp only [runRound, if_neg hb]
      rcases rest with _ | ⟨e2, rest2⟩
      · simp only [runRound]
        have h1 := htSize_popEntry (d, a, as)
        simp only [htSize_append, htSize, List.map_cons, List.sum_cons,
          List.map_nil, List.sum_nil, List.map_append, List.sum_append] at h1 ⊢
        omega
      · have h2 := ih (cur ++ [a]) (by simp)
        have h1 := htSize_popEntry (d, a, as)
        simp only [htSize_append, htSize, List.map_cons, List.sum_cons,
          List.map_append, List.sum_append] at h1 h2 ⊢
        omega

theorem optionToList_flatten (o : Option (List NewsArticle)) :
    o.toList.flatten = o.getD [] := by
  cases o <;> simp

theorem flattenHT_nil : flattenHT [] = [] := rfl

/-- The batching loop preserves the pool: emitted batches plus the current
batch plus the queued articles form a fixed multiset. -/
theorem whileLoopF_perm (fuel : Nat) :
    ∀ (dyn : Bool) (maxB : Nat) (ht : List Entry)
      (batches : List (List NewsArticle)) (cur : List NewsArticle),
      htSize ht < fuel →
      List.Perm (whileLoopF fuel dyn maxB ht batches cur).flatten
        (batches.flatten ++ cur ++ flattenHT ht) := by
  induction fuel with
  | zero => exact fun _ _ ht _ _ h => absurd h (Nat.not_lt_zero _)
  | succ fuel ih =>
    intro dyn maxB ht batches cur h
    simp only [whileLoopF]
    set maxB' := if dyn then ht.length else maxB with hmb
    by_cases hempty : (runRound ht cur maxB').ht = []
    · rw [if_pos hempty]
      have hr := runRound_perm ht cur maxB'
      rw [hempty, flattenHT_nil] at hr
      refine List.perm_iff_count.mpr fun y => ?_
      have h1 := List.Perm.count_eq hr y
      simp only [List.nil_append, List.flatten_append, List.flatten_cons,
        List.flatten_nil, List.count_append, optionToList_flatten,
        List.append_nil, List.count_nil] at h1 ⊢
      omega
    · rw [if_neg hempty]
      have hne : ht ≠ [] := by
        intro hh
        rw [hh] at hempty
        exact hempty rfl
      have hsz : htSize (runRound ht cur maxB').ht < fuel := by
        have := runRound_size ht cur maxB' hne
        omega
      have h1 := List.Perm.count_eq
        (ih dyn maxB (runRound ht cur maxB').ht
          (batches ++ (runRound ht cur maxB').batch.toList)
          (runRound ht cur maxB').cur hsz)
      have h2 := List.Perm.count_eq (runRound_perm ht cur maxB')
      refine List.perm_iff_count.mpr fun y => ?_
      have h1y := h1 y
      have h2y := h2 y
      simp only [List.flatten_append, List.count_append,
        optionToList_flatten] at h1y h2y ⊢
      omega

/-- Flattened `_batchify` output is a permutation of the input, for every
`max_batch` setting. -/
theorem _batchify_perm (articles : List NewsArticle) (maxBatch : Option Nat) :
    List.Perm (_batchify articles maxBatch).flatten articles := by
  have h := whileLoopF_perm (htSize (groupByDomain articles) + 1)
    (maxBatch.getD 0 == 0) (maxBatch.getD 0) (groupByDomain articles) [] []
    (Nat.lt_succ_self _)
  simp only [List.flatten_nil, List.nil_append] at h
  exact h.trans (groupByDomain_perm articles)

/-- One-step unfolding of `runRound` on a nonempty dict, with the
recursive occurrence kept folded. -/
theorem runRound_cons (d : String) (a : NewsArticle) (as : List NewsArticle)
    (rest : List Entry) (cur : List NewsArticle) (maxB : Nat) :
    runRound ((d, a, as) :: rest) cur maxB =
      if maxB ≤ (cur ++ [a]).length then
        ⟨(popEntry (d, a, as)).toList ++ rest, some (cur ++ [a]), []⟩
      else
        ⟨(popEntry (d, a, as)).toList ++ (runRound rest (cur ++ [a]) maxB).ht,
         (runRound rest (cur ++ [a]) maxB).batch,
         (runRound rest (cur ++ [a]) maxB).cur⟩ := rfl

/-- When `max_batch` equals the number of live domains plus the articles
already in `current_batch` — the situation of every dynamic-mode sweep —
the sweep visits every domain once, pops each bucket head, and emits the
batch exactly at the last domain. -/
theorem runRound_full (entries : List Entry) (cur : List NewsArticle)
    (h : entries ≠ []) :
    runRound entries cur (cur.length + entries.length) =
      ⟨entries.filterMap popEntry, some (cur ++ entries.map headArt), []⟩ := by
  induction entries generalizing cur with
  | nil => exact absurd rfl h
  | cons e rest ih =>
    rcases e with ⟨d, a, as⟩
    rcases rest with _ | ⟨e2, rest2⟩
    · have hcond : cur.length + [(d, a, as)].length ≤ (cur ++ [a]).length := by
        simp
      rw [runRound_cons, if_pos hcond]
      simp only [List.filterMap_cons, List.map_cons, List.map_nil, headArt]
      cases has : popEntry (d, a, as) <;> simp [has]
    · have hcond : ¬ cur.length + ((d, a, as) :: e2 :: rest2).length ≤
          (cur ++ [a]).length := by
        simp
      rw [runRound_cons, if_neg hcond]
      have harg : (cur ++ [a]).length + (e2 :: rest2).length =
          cur.length + ((d, a, as) :: e2 :: rest2).length := by
        simp
        omega
      have hih := ih (cur ++ [a]) (by simp)
      rw [harg] at hih
      rw [hih]
      simp only [List.filterMap_cons, List.map_cons, headArt,
        List.append_assoc, List.cons_append, List.nil_append]
      cases has : popEntry (d, a, as) <;> simp [has]

/-- Popping every bucket keeps the key sequence a subsequence of the old
one (keys are preserved or deleted, never reordered or created). -/
theorem htKeys_filterMap_popEntry (ht : List Entry) :
    List.Sublist (htKeys (ht.filterMap popEntry)) (htKeys ht) := by
  induction ht with
  | nil => simp [htKeys]
  | cons e rest ih =>
    rcases e with ⟨d, a, as⟩
    cases as with
    | nil =>
      simp only [List.filterMap_cons, popEntry, htKeys, List.map_cons]
      exact List.Sublist.cons _ ih
    | cons b bs =>
      simp only [List.filterMap_cons, popEntry, htKeys, List.map_cons]
      exact List.Sublist.cons₂ _ ih

theorem keysND_filterMap_popEntry (ht : List Entry) (h : keysND ht) :
    keysND (ht.filterMap popEntry) :=
  List.Nodup.sublist (htKeys_filterMap_popEntry ht) h

theorem bucketsOk_filterMap_popEntry (ht : List Entry) (h : bucketsOk ht) :
    bucketsOk (ht.filterMap popEntry) := by
  intro e' he'
  rcases List.mem_filterMap.mp he' with ⟨e, he, hpop⟩
  rcases e with ⟨d, a, as⟩
  cases as with
  | nil => simp [popEntry] at hpop
  | cons b bs =>
    simp only [popEntry, Option.some.injEq] at hpop
    subst hpop
    rcases h (d, a, b :: bs) he with ⟨_, hall⟩
    refine ⟨hall b (by simp), fun c hc => hall c (by simp [hc])⟩

theorem htKeys_insertArticle (g : List Entry) (x : NewsArticle) :
    htKeys (insertArticle g x) =
      if x.domain ∈ htKeys g then htKeys g else htKeys g ++ [x.domain] := by
  induction g with
  | nil => simp [insertArticle, htKeys]
  | cons e rest ih =>
    rcases e with ⟨d, a, as⟩
    by_cases h : d = x.domain
    · subst h
      simp [insertArticle, htKeys]
    · simp only [insertArticle, if_neg h, htKeys, List.map_cons] at ih ⊢
      by_cases hmem : x.domain ∈ List.map (fun (e : Entry) => e.1) rest
      · rw [if_pos hmem] at ih
        rw [ih, if_pos (List.mem_cons_of_mem d hmem)]
      · have hnot : x.domain ∉ d :: List.map (fun (e : Entry) => e.1) rest := by
          simp only [List.mem_cons]
          push_neg
          exact ⟨fun hdx => h hdx.symm, hmem⟩
        rw [if_neg hmem] at ih
        rw [ih, if_neg hnot]
        simp

theorem keysND_insertArticle (g : List Entry) (x : NewsArticle)
    (h : keysND g) : keysND (insertArticle g x) := by
  unfold keysND at h ⊢
  rw [htKeys_insertArticle]
  by_cases hmem : x.domain ∈ htKeys g
  · rwa [if_pos hmem]
  · rw [if_neg hmem]
    simpa [List.nodup_append] using ⟨h, hmem⟩

theorem bucketsOk_insertArticle (g : List Entry) (x : NewsArticle)
    (h : bucketsOk g) : bucketsOk (insertArticle g x) := by
  induction g with
  | nil =>
    intro e he
    simp only [insertArticle, List.mem_singleton] at he
    subst he
    exact ⟨rfl, by simp⟩
  | cons e0 rest ih =>
    rcases e0 with ⟨d, a, as⟩
    have h0 := h (d, a, as) (by simp)
    have hrest : bucketsOk rest := fun e he => h e (by simp [he])
    by_cases hd : d = x.domain
    · intro e he
      simp only [insertArticle, if_pos hd, List.mem_cons] at he
      rcases he with he | he
      · subst he
        refine ⟨h0.1, fun b hb => ?_⟩
        rcases List.mem_append.mp hb with hb | hb
        · exact h0.2 b hb
        · simp only [List.mem_singleton] at hb
          subst hb
          exact hd.symm
      · exact h e (by simp [he])
    · intro e he
      simp only [insertArticle, if_neg hd, List.mem_cons] at he
      rcases he with he | he
      · subst he
        exact h0
      · exact ih hrest e he

theorem keysND_groupByDomain (articles : List NewsArticle) :
    keysND (groupByDomain articles) := by
  suffices h : ∀ (xs : List NewsArticle) (g : List Entry), keysND g →
      keysND (List.foldl insertArticle g xs) by
    exact h articles [] (by simp [keysND, htKeys])
  intro xs
  induction xs with
  | nil => exact fun g hg => hg
  | cons x xs ih =>
    intro g hg
    exact ih (insertArticle g x) (keysND_insertArticle g x hg)

theorem bucketsOk_groupByDomain (articles : List NewsArticle) :
    bucketsOk (groupByDomain articles) := by
  suffices h : ∀ (xs : List NewsArticle) (g : List Entry), bucketsOk g →
      bucketsOk (List.foldl insertArticle g xs) by
    exact h articles [] (by intro e he; simp at he)
  intro xs
  induction xs with
  | nil => exact fun g hg => hg
  | cons x xs ih =>
    intro g hg
    exact ih (insertArticle g x) (bucketsOk_insertArticle g x hg)

/-- The bucket heads of a well-formed dict carry exactly the dict keys as
domains. -/
theorem map_domain_headArt (ht : List Entry) (h : bucketsOk ht) :
    (ht.map headArt).map (fun a => a.domain) = htKeys ht := by
  induction ht with
  | nil => simp [htKeys]
  | cons e rest ih =>
    have he := h e (by simp)
    have hrest : bucketsOk rest := fun e' he' => h e' (by simp [he'])
    simp only [List.map_cons, htKeys, headArt] at ih ⊢
    rw [he.1, ih hrest]

/-- Dynamic-mode sweep (`max_batch = len(hashtable.keys())`, empty
`current_batch`): one article per live domain, batch emitted, dict popped
once everywhere. -/
theorem runRound_dyn (ht : List Entry) (h : ht ≠ []) :
    runRound ht [] ht.length =
      ⟨ht.filterMap popEntry, some (ht.map headArt), []⟩ := by
  have h0 := runRound_full ht [] h
  simpa using h0

theorem filterMap_popEntry_allNil (ht : List Entry)
    (h : ∀ e ∈ ht, e.2.2 = []) : ht.filterMap popEntry = [] := by
  induction ht with
  | nil => rfl
  | cons e rest ih =>
    rcases e with ⟨d, a, as⟩
    have he : as = [] := h (d, a, as) (by simp)
    subst he
    simp only [List.filterMap_cons, popEntry]
    exact ih fun e' he' => h e' (by simp [he'])

theorem filterMap_popEntry_uniform (k : Nat) (hk : 1 ≤ k) (ht : List Entry)
    (h : ∀ e ∈ ht, e.2.2.length = k) :
    (ht.filterMap popEntry).length = ht.length ∧
      ∀ e' ∈ ht.filterMap popEntry, e'.2.2.length = k - 1 := by
  induction ht with
  | nil => simp
  | cons e rest ih =>
    rcases e with ⟨d, a, as⟩
    have hlen : as.length = k := h (d, a, as) (by simp)
    cases as with
    | nil =>
      simp only [List.length_nil] at hlen
      omega
    | cons b bs =>
      have hrest := ih fun e' he' => h e' (by simp [he'])
      simp only [List.filterMap_cons, popEntry]
      refine ⟨by simp [hrest.1], fun e' he' => ?_⟩
      rcases List.mem_cons.mp he' with he' | he'
      · subst he'
        simp only [List.length_cons] at hlen
        simp
        omega
      · exact hrest.2 e' he'

/-- In dynamic mode every batch appended by the loop — beyond those
already accumulated — has pairwise-distinct article domains, provided the
dict is well formed. -/
theorem whileLoopF_dyn_nodup (fuel : Nat) :
    ∀ (maxB : Nat) (ht : List Entry) (batches : List (List NewsArticle)),
      htSize ht < fuel → keysND ht → bucketsOk ht →
      (∀ b ∈ batches, (b.map (fun a => a.domain)).Nodup) →
      ∀ b ∈ whileLoopF fuel true maxB ht batches [],
        (b.map (fun a => a.domain)).Nodup := by
  induction fuel with
  | zero => exact fun _ ht _ h _ _ _ => absurd h (Nat.not_lt_zero _)
  | succ fuel ih =>
    intro maxB ht batches hf hnd hok hb
    rcases eq_or_ne ht [] with rfl | hne
    · intro b hbm
      have hres : whileLoopF (fuel + 1) true maxB [] batches [] =
          batches ++ [[]] := by
        simp [whileLoopF, runRound]
      rw [hres] at hbm
      rcases List.mem_append.mp hbm with hbm | hbm
      · exact hb b hbm
      · simp only [List.mem_singleton] at hbm
        subst hbm
        simp
    · have hr' := runRound_dyn ht hne
      have hbatch : ∀ b ∈ batches ++ [ht.map headArt],
          (b.map (fun a => a.domain)).Nodup := by
        intro b hbm
        rcases List.mem_append.mp hbm with hbm | hbm
        · exact hb b hbm
        · simp only [List.mem_singleton] at hbm
          subst hbm
          rw [map_domain_headArt ht hok]
          exact hnd
      have hsz : htSize (ht.filterMap popEntry) < htSize ht := by
        have h1 := runRound_size ht [] ht.length hne
        have h2 := congrArg RoundResult.ht (runRound_dyn ht hne)
        rw [h2] at h1
        exact h1
      by_cases hfm : ht.filterMap popEntry = []
      · have hres : whileLoopF (fuel + 1) true maxB ht batches [] =
            batches ++ [ht.map headArt] ++ [[]] := by
          simp [whileLoopF, hr', hfm]
        rw [hres]
        intro b hbm
        rcases List.mem_append.mp hbm with hbm | hbm
        · exact hbatch b hbm
        · simp only [List.mem_singleton] at hbm
          subst hbm
          simp
      · have hres : whileLoopF (fuel + 1) true maxB ht batches [] =
            whileLoopF fuel true maxB (ht.filterMap popEntry)
              (batches ++ [ht.map headArt]) [] := by
          simp [whileLoopF, hr', hfm]
        rw [hres]
        exact ih maxB (ht.filterMap popEntry) (batches ++ [ht.map headArt])
          (by omega) (keysND_filterMap_popEntry ht hnd)
          (bucketsOk_filterMap_popEntry ht hok) hbatch

/-- Dynamic mode on a dict whose buckets all hold exactly `k` articles:
the loop appends `k` full batches (one article per live domain) and then
one final empty batch. -/
theorem whileLoopF_dyn_uniform (k : Nat) :
    ∀ (fuel maxB : Nat) (ht : List Entry)
      (batches : List (List NewsArticle)),
      htSize ht < fuel → ht ≠ [] →
      (∀ e ∈ ht, e.2.2.length + 1 = k) →
      ∃ bs, whileLoopF fuel true maxB ht batches [] =
          batches ++ bs ++ [[]] ∧ bs.length = k ∧
          ∀ b ∈ bs, b.length = ht.length := by
  induction k with
  | zero =>
    intro fuel maxB ht batches hf hne hk
    rcases ht with _ | ⟨e, rest⟩
    · exact absurd rfl hne
    · have := hk e (by simp)
      omega
  | succ k ih =>
    intro fuel maxB ht batches hf hne hk
    rcases fuel with _ | fuel
    · exact absurd hf (Nat.not_lt_zero _)
    · have hr' := runRound_dyn ht hne
      rcases Nat.eq_zero_or_pos k with rfl | hkpos
      · -- every bucket holds exactly one article: the dict empties now
        have hnil : ht.filterMap popEntry = [] := by
          refine filterMap_popEntry_allNil ht fun e he => ?_
          have := hk e he
          simpa using List.length_eq_zero.mp (by omega)
        refine ⟨[ht.map headArt], ?_, by simp, ?_⟩
        · simp [whileLoopF, hr', hnil]
        · intro b hbm
          simp only [List.mem_singleton] at hbm
          subst hbm
          simp
      · -- every bucket still holds k ≥ 1 articles after the pop
        have huni := filterMap_popEntry_uniform k hkpos ht
          (fun e he => by have := hk e he; omega)
        have hfm : ht.filterMap popEntry ≠ [] := by
          intro hx
          rw [hx] at huni
          simp only [List.length_nil] at huni
          rcases ht with _ | ⟨e, rest⟩
          · exact hne rfl
          · simp at huni
        have hlt : htSize (ht.filterMap popEntry) < htSize ht := by
          have h1 := runRound_size ht [] ht.length hne
          have h2 := congrArg RoundResult.ht (runRound_dyn ht hne)
          rw [h2] at h1
          exact h1
        have hsz : htSize (ht.filterMap popEntry) < fuel := by omega
        have hres : whileLoopF (fuel + 1) true maxB ht batches [] =
            whileLoopF fuel true maxB (ht.filterMap popEntry)
              (batches ++ [ht.map headArt]) [] := by
          simp [whileLoopF, hr', hfm]
        rcases ih fuel maxB (ht.filterMap popEntry)
            (batches ++ [ht.map headArt]) hsz hfm
            (fun e' he' => by have := huni.2 e' he'; omega) with
          ⟨bs, hbs, hlen, hsizes⟩
        refine ⟨ht.map headArt :: bs, ?_, by simp [hlen], ?_⟩
        · rw [hres, hbs]
          simp
        · intro b hbm
          rcases List.mem_cons.mp hbm with hbm | hbm
          · subst hbm
            simp
          · have := hsizes b hbm
            rw [this, huni.1]

theorem mem_flattenHT {a : NewsArticle} {ht : List Entry} :
    a ∈ flattenHT ht ↔ ∃ e ∈ ht, a = e.2.1 ∨ a ∈ e.2.2 := by
  simp [flattenHT, eq_comm]

/-- Every queued article's domain is a dict key. -/
theorem domain_mem_htKeys {a : NewsArticle} {ht : List Entry}
    (hok : bucketsOk ht) (ha : a ∈ flattenHT ht) : a.domain ∈ htKeys ht := by
  rcases mem_flattenHT.mp ha with ⟨e, he, hcase⟩
  have hoke := hok e he
  have hdom : a.domain = e.1 := by
    rcases hcase with rfl | hmem
    · exact hoke.1
    · exact hoke.2 a hmem
  rw [hdom]
  exact List.mem_map.mpr ⟨e, he, rfl⟩

theorem filter_flattenHT_of_notMem (ht : List Entry) (d : String)
    (hok : bucketsOk ht) (hd : d ∉ htKeys ht) :
    (flattenHT ht).filter (fun a => a.domain == d) = [] := by
  refine List.eq_nil_iff_forall_not_mem.mpr fun a ha => ?_
  have hmem := List.mem_filter.mp ha
  have : a.domain = d := by simpa using hmem.2
  exact hd (this ▸ domain_mem_htKeys hok hmem.1)

/-- In a well-formed dict, filtering the queued pool by a key recovers
exactly that key's bucket. -/
theorem bucket_filter (ht : List Entry) (hnd : keysND ht) (hok : bucketsOk ht) :
    ∀ e ∈ ht, (flattenHT ht).filter (fun a => a.domain == e.1) =
      e.2.1 :: e.2.2 := by
  induction ht with
  | nil => simp
  | cons e0 rest ih =>
    intro e he
    have hok0 := hok e0 (by simp)
    have hokrest : bucketsOk rest := fun x hx => hok x (by simp [hx])
    have hnd' := hnd
    unfold keysND htKeys at hnd'
    simp only [List.map_cons, List.nodup_cons] at hnd'
    have hndrest : keysND rest := hnd'.2
    have hflat : flattenHT (e0 :: rest) =
        (e0.2.1 :: e0.2.2) ++ flattenHT rest := by
      simp [flattenHT]
    rcases List.mem_cons.mp he with rfl | he'
    · rw [hflat, List.filter_append]
      have h1 : (e.2.1 :: e.2.2).filter (fun a => a.domain == e.1) =
          e.2.1 :: e.2.2 := by
        refine List.filter_eq_self.mpr fun a ha => ?_
        rcases List.mem_cons.mp ha with rfl | ha'
        · simpa using hok0.1
        · simpa using hok0.2 a ha'
      have h2 : (flattenHT rest).filter (fun a => a.domain == e.1) = [] := by
        refine filter_flattenHT_of_notMem rest e.1 hokrest ?_
        simpa [htKeys] using hnd'.1
      rw [h1, h2, List.append_nil]
    · rw [hflat, List.filter_append]
      have hkey : e.1 ∈ htKeys rest := List.mem_map.mpr ⟨e, he', rfl⟩
      have hne01 : e0.1 ≠ e.1 := by
        intro hx
        have hn0 : e0.1 ∉ htKeys rest := by simpa [htKeys] using hnd'.1
        rw [← hx] at hkey
        exact hn0 hkey
      have h1 : (e0.2.1 :: e0.2.2).filter (fun a => a.domain == e.1) = [] := by
        refine List.eq_nil_iff_forall_not_mem.mpr fun a ha => ?_
        have hmem := List.mem_filter.mp ha
        have hd : a.domain = e.1 := by simpa using hmem.2
        have hd0 : a.domain = e0.1 := by
          rcases List.mem_cons.mp hmem.1 with rfl | ha'
          · exact hok0.1
          · exact hok0.2 a ha'
        exact hne01 (hd0 ▸ hd)
      rw [h1, List.nil_append]
      exact ih hndrest hokrest e he'

/-- The bucket of a key holds as many articles as the input has articles
of that domain. -/
theorem entry_size_eq_filter_length (articles : List NewsArticle)
    (e : Entry) (he : e ∈ groupByDomain articles) :
    e.2.2.length + 1 =
      (articles.filter (fun a => a.domain == e.1)).length := by
  have h1 := bucket_filter (groupByDomain articles)
    (keysND_groupByDomain articles) (bucketsOk_groupByDomain articles) e he
  have h2 := (groupByDomain_perm articles).filter (fun a => a.domain == e.1)
  have h3 := h2.length_eq
  rw [h1] at h3
  simpa [Nat.add_comm] using h3

/-- The dict keys are exactly the domains occurring in the input. -/
theorem mem_htKeys_groupByDomain (articles : List NewsArticle) (d : String) :
    d ∈ htKeys (groupByDomain articles) ↔
      d ∈ articles.map (fun a => a.domain) := by
  constructor
  · intro hd
    rcases List.mem_map.mp hd with ⟨e, he, rfl⟩
    have hh : e.2.1 ∈ flattenHT (groupByDomain articles) :=
      mem_flattenHT.mpr ⟨e, he, Or.inl rfl⟩
    have hmem : e.2.1 ∈ articles :=
      (groupByDomain_perm articles).mem_iff.mp hh
    have hdom := (bucketsOk_groupByDomain articles e he).1
    exact List.mem_map.mpr ⟨e.2.1, hmem, hdom⟩
  · intro hd
    rcases List.mem_map.mp hd with ⟨a, ha, rfl⟩
    have hmem : a ∈ flattenHT (groupByDomain articles) :=
      (groupByDomain_perm articles).mem_iff.mpr ha
    exact domain_mem_htKeys (bucketsOk_groupByDomain articles) hmem

theorem groupByDomain_ne_nil (articles : List NewsArticle)
    (h : articles ≠ []) : groupByDomain articles ≠ [] := by
  intro hx
  have hp := groupByDomain_perm articles
  rw [hx] at hp
  have hl := hp.length_eq
  simp only [flattenHT_nil, List.length_nil] at hl
  exact h (List.length_eq_zero.mp hl.symm)

/-- The group count equals the number of distinct domains of the input. -/
theorem groupByDomain_length (articles : List NewsArticle) :
    (groupByDomain articles).length =
      (articles.map fun a => a.domain).toFinset.card := by
  have hnd := keysND_groupByDomain articles
  have hcard := List.toFinset_card_of_nodup hnd
  have hset : (htKeys (groupByDomain articles)).toFinset =
      (articles.map fun a => a.domain).toFinset := by
    apply Finset.ext
    intro d
    simp only [List.mem_toFinset]
    exact mem_htKeys_groupByDomain articles d
  have hlen : (htKeys (groupByDomain articles)).length =
      (groupByDomain articles).length := by
    simp [htKeys]
  rw [← hlen, ← hcard, hset]

end Scraper

-- sanity check on a concrete input (domains a,a,b,c,c, dynamic mode)
example :
    Scraper._batchify
      [Scraper.mkArt "a" "a1", Scraper.mkArt "a" "a2", Scraper.mkArt "b" "b1",
       Scraper.mkArt "c" "c1", Scraper.mkArt "c" "c2"] none =
    [[Scraper.mkArt "a" "a1", Scraper.mkArt "b" "b1", Scraper.mkArt "c" "c1"],
     [Scraper.mkArt "a" "a2", Scraper.mkArt "c" "c2"], []] := by decide

namespace Scraper

/-- C1 (amended): for every input and every `max_batch` setting the
flattened `_batchify` output is a permutation of the input (no article
lost or duplicated); in dynamic mode (`max_batch = None`) no single batch
contains two articles whose `domain` fields are equal.  (In fixed mode a
batch can mix same-domain articles, see the counterexample.) -/
theorem c1_batchify_perm_and_dynamic_domain_distinct
    (articles : List NewsArticle) (maxBatch : Option Nat) :
    List.Perm (_batchify articles maxBatch).flatten articles ∧
    ∀ b ∈ _batchify articles none, (b.map fun a => a.domain).Nodup := by
  refine ⟨_batchify_perm articles maxBatch, ?_⟩
  have hdef : _batchify articles none =
      whileLoopF (htSize (groupByDomain articles) + 1) true 0
        (groupByDomain articles) [] [] := rfl
  rw [hdef]
  exact whileLoopF_dyn_nodup (htSize (groupByDomain articles) + 1) 0
    (groupByDomain articles) [] (Nat.lt_succ_self _)
    (keysND_groupByDomain articles) (bucketsOk_groupByDomain articles)
    (by intro b hb; simp at hb)

/-- C1 counterexample: with `max_batch = 2` and two articles of the same
domain, `_batchify` emits the batch `[u1, u2]` containing two articles of
equal domain `"x"` — the claim fails in fixed mode. -/
theorem c1_counterexample_fixed_mode_duplicate_domain :
    _batchify [mkArt "x" "u1", mkArt "x" "u2"] (some 2) =
      [[mkArt "x" "u1", mkArt "x" "u2"], []] ∧
    ¬ (([mkArt "x" "u1", mkArt "x" "u2"].map fun a => a.domain).Nodup) := by
  decide

/-- C2 (amended): dynamic-mode batching on an input with `d` distinct
domains and exactly `k` articles per domain returns `k + 1` batches: the
first `k` batches have exactly `d` articles each, and the final batch is
empty (the loop appends `current_batch` one extra time after the dict
empties). -/
theorem c2_dynamic_uniform_batches (articles : List NewsArticle) (d k : Nat)
    (hne : articles ≠ [])
    (hk : ∀ a ∈ articles,
      (articles.filter fun b => b.domain == a.domain).length = k)
    (hd : (articles.map fun a => a.domain).toFinset.card = d) :
    (_batchify articles none).length = k + 1 ∧
    (∀ b ∈ (_batchify articles none).dropLast, b.length = d) ∧
    (_batchify articles none).getLast? = some [] := by
  have hdef : _batchify articles none =
      whileLoopF (htSize (groupByDomain articles) + 1) true 0
        (groupByDomain articles) [] [] := rfl
  have hgne := groupByDomain_ne_nil articles hne
  have hlen : (groupByDomain articles).length = d := by
    rw [groupByDomain_length articles, hd]
  have hku : ∀ e ∈ groupByDomain articles, e.2.2.length + 1 = k := by
    intro e he
    have hsize := entry_size_eq_filter_length articles e he
    have hmem : e.2.1 ∈ articles :=
      (groupByDomain_perm articles).mem_iff.mp
        (mem_flattenHT.mpr ⟨e, he, Or.inl rfl⟩)
    have hdom := (bucketsOk_groupByDomain articles e he).1
    have hcount := hk e.2.1 hmem
    rw [hdom] at hcount
    rw [hsize, hcount]
  rcases whileLoopF_dyn_uniform k (htSize (groupByDomain articles) + 1) 0
      (groupByDomain articles) [] (Nat.lt_succ_self _) hgne hku with
    ⟨bs, hbs, hbslen, hbssizes⟩
  rw [hdef, hbs]
  simp only [List.nil_append]
  refine ⟨by simp [hbslen], ?_, ?_⟩
  · intro b hb
    rw [List.dropLast_concat] at hb
    rw [hbssizes b hb, hlen]
  · exact List.getLast?_concat _

/-- C2 witness: four articles over two domains, two per domain (`d = 2`,
`k = 2`). -/
theorem c2_witness :
    (_batchify [mkArt "a" "u1", mkArt "b" "u2", mkArt "a" "u3",
        mkArt "b" "u4"] none).length = 2 + 1 ∧
    (∀ b ∈ (_batchify [mkArt "a" "u1", mkArt "b" "u2", mkArt "a" "u3",
        mkArt "b" "u4"] none).dropLast, b.length = 2) ∧
    (_batchify [mkArt "a" "u1", mkArt "b" "u2", mkArt "a" "u3",
        mkArt "b" "u4"] none).getLast? = some [] :=
  c2_dynamic_uniform_batches
    [mkArt "a" "u1", mkArt "b" "u2", mkArt "a" "u3", mkArt "b" "u4"] 2 2
    (by decide) (by decide) (by decide)

/-- C2 counterexample: one domain, one article (`d = k = 1`): the code
returns two batches (the second empty), not exactly `k = 1` batches of
size `d = 1`. -/
theorem c2_counterexample_trailing_empty_batch :
    _batchify [mkArt "a" "u1"] none = [[mkArt "a" "u1"], []] := by decide

/-- C7 (amended): the empty input produces exactly one batch, and that
batch is empty — not zero batches — in both fixed and dynamic modes (the
first loop iteration sweeps an empty dict and appends the still-empty
`current_batch`). -/
theorem c7_empty_input_one_empty_batch (maxBatch : Option Nat) :
    _batchify [] maxBatch = [[]] := by
  cases maxBatch with
  | none => rfl
  | some n => simp [_batchify, groupByDomain, htSize, whileLoopF, runRound]

/-- C7 counterexample: on the empty input `_batchify` returns one batch
(in either sizing mode), not an empty sequence of batches. -/
theorem c7_counterexample_one_batch_not_zero :
    (_batchify [] none).length = 1 ∧ (_batchify [] (some 3)).length = 1 := by
  decide

end Scraper

namespace Scraper

/-! ## Lemmas about the link scrapers -/

/-- The per-window loop of `scrape` only appends rows, one window at a
time. -/
theorem scrape_eq_flatMap (fetchO : String → Fetched)
    (parseO : String → PyResult (List String))
    (urlF : String → Int → Int → Nat → String) (query : String)
    (numPages : Nat) (dateRange : List (Int × Int)) :
    scrape fetchO parseO urlF query numPages dateRange =
      dateRange.flatMap (windowRow fetchO parseO urlF query numPages) := by
  suffices h : ∀ (ws : List (Int × Int)) (rows : List DateWindowRow),
      ws.foldl (fun rows w =>
        rows ++ windowRow fetchO parseO urlF query numPages w) rows =
      rows ++ ws.flatMap (windowRow fetchO parseO urlF query numPages) by
    simpa [scrape] using h dateRange []
  intro ws
  induction ws with
  | nil => simp
  | cons w ws ih =>
    intro rows
    simp only [List.foldl_cons, List.flatMap_cons, ih, List.append_assoc]

theorem flatten_replicate_nil (n : Nat) :
    (List.replicate n ([] : List String)).flatten = [] := by
  induction n with
  | zero => rfl
  | succ n ih => simp [List.replicate_succ, ih]

end Scraper

namespace Scraper

/-- C3 (amended): `_fetch_and_parse` never raises, and its failure values
are: a failed fetch (transport / HTTP error already collapsed to `None`
by `_fetch`) yields the empty list, while a parser exception is caught,
logged, and yields Python `None` — not the empty list; on success the
parsed links are returned. -/
theorem c3_fetch_and_parse_failure_modes (fetchO : String → Fetched)
    (parseO : String → PyResult (List String)) (url : String) :
    (fetchO url = Fetched.failed →
      fetchAndParse fetchO parseO url = some []) ∧
    (∀ c msg, fetchO url = Fetched.content c → parseO c = PyResult.exn msg →
      fetchAndParse fetchO parseO url = none) ∧
    (∀ c links, fetchO url = Fetched.content c →
      parseO c = PyResult.ok links →
      fetchAndParse fetchO parseO url = some links) := by
  refine ⟨fun h => by simp [fetchAndParse, h], ?_, ?_⟩
  · intro c msg hc hp
    simp [fetchAndParse, hc, hp]
  · intro c links hc hp
    simp [fetchAndParse, hc, hp]

/-- C3 witness: a transport failure comes back as the empty list. -/
theorem c3_witness :
    fetchAndParse (fun _ => Fetched.failed)
      (fun _ => PyResult.ok ["x"]) "http://u" = some [] :=
  (c3_fetch_and_parse_failure_modes (fun _ => Fetched.failed)
    (fun _ => PyResult.ok ["x"]) "http://u").1 rfl

/-- C3 counterexample: when the fetch succeeds and the parser raises,
`_fetch_and_parse` returns `None` (falling off the end of the function),
not the empty sequence the claim requires. -/
theorem c3_counterexample_parser_exception_returns_none :
    fetchAndParse (fun _ => Fetched.content "page")
        (fun _ => PyResult.exn "boom") "http://u" = none ∧
    fetchAndParse (fun _ => Fetched.content "page")
        (fun _ => PyResult.exn "boom") "http://u" ≠ some [] := by
  decide

/-- C4 (amended): an unsupported `method` does not raise to the caller:
the `ValueError` is caught by the surrounding `except`, which logs it and
leaves an empty window list, so the entry point returns `None` normally
and `scrape` (hence any network activity) is never reached. -/
theorem c4_bad_method_no_raise_no_scrape (fetchO : String → Fetched)
    (parseO : String → PyResult (List String))
    (urlF : String → Int → Int → Nat → String) (query : String)
    (numPages : Nat) (method : String) (s e : Int)
    (h1 : method ≠ "daily") (h2 : method ≠ "weekly") :
    run fetchO parseO urlF query numPages method s e = PyResult.ok none := by
  unfold run buildDateRange
  rw [if_neg h1, if_neg h2]
  simp

/-- C4 witness: `method = "monthly"` returns `None` without raising. -/
theorem c4_witness :
    run (fun _ => Fetched.failed) (fun _ => PyResult.ok [])
      (fun _ _ _ _ => "u") "q" 1 "monthly" 3 9 = PyResult.ok none :=
  c4_bad_method_no_raise_no_scrape _ _ _ "q" 1 "monthly" 3 9
    (by decide) (by decide)

/-- C4 counterexample: the claim says an unsupported method raises a
configuration error to the caller; instead the call returns normally
(`.ok none`, Python `None`). -/
theorem c4_counterexample_bad_method_returns_normally :
    run (fun _ => Fetched.failed) (fun _ => PyResult.ok [])
      (fun _ _ _ _ => "u") "q" 2 "monthly" 0 5 = PyResult.ok none := by
  decide

/-- C5: a window whose every page fetch fails at the transport level
still contributes a row, with an empty `links` list, to the `scrape`
output — the window is not dropped. -/
theorem c5_failed_window_still_yields_row (fetchO : String → Fetched)
    (parseO : String → PyResult (List String))
    (urlF : String → Int → Int → Nat → String) (query : String)
    (numPages : Nat) (dateRange : List (Int × Int)) (w : Int × Int)
    (hw : w ∈ dateRange)
    (hfail : ∀ p, 1 ≤ p → p ≤ numPages →
      fetchO (urlF query w.1 w.2 p) = Fetched.failed) :
    (⟨w.1, w.2, []⟩ : DateWindowRow) ∈
      scrape fetchO parseO urlF query numPages dateRange := by
  rw [scrape_eq_flatMap]
  refine List.mem_flatMap.mpr ⟨w, hw, ?_⟩
  have hcontents : rawData fetchO parseO urlF query numPages w.1 w.2 =
      List.replicate numPages (some []) := by
    refine List.eq_replicate_iff.mpr ⟨by simp [rawData], fun b hb => ?_⟩
    rcases List.mem_map.mp hb with ⟨i, hi, rfl⟩
    have hrange := List.mem_range.mp hi
    have hf := hfail (i + 1) (by omega) (by omega)
    simp [fetchAndParse, hf]
  have hall : (List.replicate numPages (some ([] : List String))).all
      Option.isSome = true := by
    simp [List.all_eq_true]
  simp [windowRow, hcontents, hall, List.map_replicate,
    flatten_replicate_nil]

/-- C5 witness: one window, one failing page. -/
theorem c5_witness :
    (⟨0, 0, []⟩ : DateWindowRow) ∈
      scrape (fun _ => Fetched.failed) (fun _ => PyResult.ok ["x"])
        (fun _ _ _ _ => "u") "q" 1 [(0, 0)] :=
  c5_failed_window_still_yields_row (fun _ => Fetched.failed)
    (fun _ => PyResult.ok ["x"]) (fun _ _ _ _ => "u") "q" 1 [(0, 0)] (0, 0)
    (by decide) (fun p _ _ => rfl)

end Scraper

namespace Scraper

/-- C6: for `start ≤ end`, daily windowing yields exactly
`(end - start).days` windows, each covering a single day (window start =
window end), in ascending date order; weekly windowing yields
`(end - start).days // 7` windows, each spanning 7 days, in ascending
date order. -/
theorem c6_window_lists (s e : Int) (h : s ≤ e) :
    (((dateRangeDaily s e).length : Int) = e - s ∧
      (∀ w ∈ dateRangeDaily s e, w.2 = w.1) ∧
      (dateRangeDaily s e).Pairwise (fun w1 w2 => w1.1 < w2.1)) ∧
    (((dateRangeWeekly s e).length : Int) = (e - s) / 7 ∧
      (∀ w ∈ dateRangeWeekly s e, w.2 - w.1 = 7) ∧
      (dateRangeWeekly s e).Pairwise (fun w1 w2 => w1.1 < w2.1)) := by
  refine ⟨⟨?_, ?_, ?_⟩, ⟨?_, ?_, ?_⟩⟩
  · simp only [dateRangeDaily, List.length_map, List.length_range]
    omega
  · intro w hw
    rcases List.mem_map.mp hw with ⟨i, _, rfl⟩
    rfl
  · rw [dateRangeDaily, List.pairwise_map]
    exact (List.pairwise_lt_range _).imp fun hij => by
      dsimp only
      omega
  · simp only [dateRangeWeekly, List.length_map, List.length_range]
    omega
  · intro w hw
    rcases List.mem_map.mp hw with ⟨i, _, rfl⟩
    dsimp only
    ring
  · rw [dateRangeWeekly, List.pairwise_map]
    exact (List.pairwise_lt_range _).imp fun hij => by
      dsimp only
      omega

/-- C6 witness: `start = 0`, `end = 9`. -/
theorem c6_witness :
    (((dateRangeDaily 0 9).length : Int) = 9 - 0 ∧
      (∀ w ∈ dateRangeDaily 0 9, w.2 = w.1) ∧
      (dateRangeDaily 0 9).Pairwise (fun w1 w2 => w1.1 < w2.1)) ∧
    (((dateRangeWeekly 0 9).length : Int) = (9 - 0) / 7 ∧
      (∀ w ∈ dateRangeWeekly 0 9, w.2 - w.1 = 7) ∧
      (dateRangeWeekly 0 9).Pairwise (fun w1 w2 => w1.1 < w2.1)) :=
  c6_window_lists 0 9 (by decide)

/-- C8: a `Query` built with `start ≤ end` iterates over
`(end - start).days + 1` dates, while `__len__` reports only
`(end - start).days` — one less than the number of days it holds. -/
theorem c8_query_len_off_by_one (q : Query) (h : q.start ≤ q.endDate) :
    (Query.dates q).length = (q.endDate - q.start).toNat + 1 ∧
    Query.len q = q.endDate - q.start ∧
    ((Query.dates q).length : Int) = Query.len q + 1 := by
  have hlen : (Query.dates q).length = (q.endDate - q.start + 1).toNat := by
    simp [Query.dates]
  refine ⟨?_, rfl, ?_⟩
  · rw [hlen]
    omega
  · rw [hlen, Query.len]
    omega

/-- C8 witness: the 5-day range `0 .. 4` has 5 dates but reports
length 4 (the repository's own `test_len` pins this behaviour). -/
theorem c8_witness :
    (Query.dates ⟨"Sample Query", 0, 4⟩).length = (4 - 0 : Int).toNat + 1 ∧
    Query.len ⟨"Sample Query", 0, 4⟩ = 4 - 0 ∧
    ((Query.dates ⟨"Sample Query", 0, 4⟩).length : Int) =
      Query.len ⟨"Sample Query", 0, 4⟩ + 1 :=
  c8_query_len_off_by_one ⟨"Sample Query", 0, 4⟩ (by decide)

/-- C10: `metadata()` returns the empty record whenever `publish_date`
is falsy (`None`), even when `downloaded` and `parsed` are both `True` —
a successful download and parse is not sufficient for a metadata row. -/
theorem c10_metadata_empty_on_none_publish_date (a : NewsArticle)
    (_hd : a.downloaded = true) (_hp : a.parsed = true)
    (hpd : a.publishDate = none) :
    a.metadata = none := by
  simp [NewsArticle.metadata, hpd]

/-- C10 witness: a downloaded, parsed article whose parse left
`publish_date = None` produces no metadata record. -/
theorem c10_witness :
    ({ url := "u", domain := "d", query := "q", title := "t", text := "x",
       authors := [], publishDate := none, summary := "", downloaded := true,
       parsed := true, nlpApplied := false } : NewsArticle).metadata =
      none :=
  c10_metadata_empty_on_none_publish_date _ rfl rfl rfl

end Scraper

namespace Scraper

/-- After any page iteration of the inner loop of `_get_news_articles`
(which reassigns `publish_date` on every accumulated article), every
article in the running accumulator carries the current query date. -/
theorem pagesLoop_publishDate (domainOf : String → String)
    (getLinks : String → List String) (urlOf : String → Int → Nat → String)
    (q : Query) (qd : Int) :
    ∀ (remaining page : Nat) (articles : List NewsArticle),
      1 ≤ remaining →
      ∀ a ∈ pagesLoop domainOf getLinks urlOf q qd page remaining articles,
        a.publishDate = some qd := by
  intro remaining
  induction remaining with
  | zero => exact fun page articles h => absurd h (by omega)
  | succ r ih =>
    intro page articles _
    set arts' := (articles ++ (getLinks (urlOf q.query qd page)).map
        (newArticle domainOf q)).map
      (fun a => { a with publishDate := some qd }) with harts
    have hstep : pagesLoop domainOf getLinks urlOf q qd page (r + 1)
        articles =
        if arts' = [] then arts'
        else pagesLoop domainOf getLinks urlOf q qd (page + 1) r arts' := rfl
    rw [hstep]
    have hmem : ∀ a ∈ arts', a.publishDate = some qd := by
      intro a ha
      rw [harts] at ha
      rcases List.mem_map.mp ha with ⟨x, _, rfl⟩
      rfl
    by_cases hnil : arts' = []
    · rw [if_pos hnil]
      exact hmem
    · rw [if_neg hnil]
      rcases Nat.eq_zero_or_pos r with rfl | hr
      · have h0 : pagesLoop domainOf getLinks urlOf q qd (page + 1) 0
            arts' = arts' := rfl
        rw [h0]
        exact hmem
      · exact ih (page + 1) arts' hr

/-- C9: when `_get_news_articles` finishes (at least one page per date,
last query spanning a nonempty date range), every article in the
returned list carries the same `publish_date` — the last date of the
last query processed — because each page iteration reassigns
`publish_date` on the whole accumulator. -/
theorem c9_all_articles_carry_last_processed_date (domainOf : String → String)
    (getLinks : String → List String) (urlOf : String → Int → Nat → String)
    (qs : List Query) (qlast : Query) (pages : Nat)
    (hp : 1 ≤ pages) (hq : qlast.start ≤ qlast.endDate) :
    ∀ a ∈ getNewsArticles domainOf getLinks urlOf (qs ++ [qlast]) pages,
      a.publishDate = some qlast.endDate := by
  unfold getNewsArticles
  rw [List.foldl_append]
  simp only [List.foldl_cons, List.foldl_nil]
  have hdates : ∃ ds, Query.dates qlast = ds ++ [qlast.endDate] := by
    obtain ⟨m, hm⟩ : ∃ m, (qlast.endDate - qlast.start + 1).toNat = m + 1 :=
      ⟨(qlast.endDate - qlast.start).toNat, by omega⟩
    refine ⟨(List.range m).map fun (n : Nat) => qlast.start + (n : Int), ?_⟩
    simp only [Query.dates]
    rw [hm, List.range_succ, List.map_append]
    simp only [List.map_cons, List.map_nil]
    congr 2
    omega
  rcases hdates with ⟨ds, hds⟩
  rw [hds, List.foldl_append]
  simp only [List.foldl_cons, List.foldl_nil]
  exact pagesLoop_publishDate domainOf getLinks urlOf qlast qlast.endDate
    pages 1 _ hp

/-- C9 witness: one query over the two days `0, 1`, one page, one link
per page: the returned article carries `publish_date = 1` (the last
query date), not the date `0` on which it was first discovered. -/
theorem c9_witness :
    ({ url := "u1", domain := "d", query := "q", title := "", text := "",
       authors := [], publishDate := some 1, summary := "",
       downloaded := false, parsed := false, nlpApplied := false } :
      NewsArticle) ∈
      getNewsArticles (fun _ => "d") (fun _ => ["u1"]) (fun s _ _ => s)
        [⟨"q", 0, 1⟩] 1 ∧
    ({ url := "u1", domain := "d", query := "q", title := "", text := "",
       authors := [], publishDate := some 1, summary := "",
       downloaded := false, parsed := false, nlpApplied := false } :
      NewsArticle).publishDate = some 1 :=
  ⟨by decide,
   c9_all_articles_carry_last_processed_date (fun _ => "d")
     (fun _ => ["u1"]) (fun s _ _ => s) [] ⟨"q", 0, 1⟩ 1 (by decide)
     (by decide) _ (by decide)⟩

end Scraper
